import Mathlib

/-!
Verification development for a producer/consumer thumbnail pipeline
(`main.py`).  One producer process enumerates image files in a directory,
decodes/resizes/encodes each into thumbnail bytes, and puts
`(filename, bytes)` work items into a bounded queue; `NUM_CONSUMERS`
consumer processes dequeue items, write them to the output directory and
increment a lock-protected shared counter; after all files the producer
puts one `None` sentinel per consumer; a consumer exits when it dequeues a
sentinel.  The orchestrator checks the input directory exists, spawns the
workers, joins them all and reports the final counter.

The pipeline is embedded as a labeled transition system: `put` by the
producer (blocked while the queue is full), and `get` by consumer `i`
(blocked while the queue is empty).  A consumer's dequeue-process-increment
of one item is one atomic step: the queue's `get` is atomic in
`multiprocessing.Queue`, and the counter increment happens under
`counter.get_lock()`, so no read-modify-write interleaving is observable.
Disk-write failures are modelled by a per-output-name oracle `writeOk`;
per-file decode failures by an oracle `decodeOk` (the `except` branch of
the producer skips the file).
-/

namespace Thumbnailer

/-- A queue work item, `(fname, buf.read())` in `producer_task`. -/
structure WorkItem where
  source_name : String
  payload : List Nat
deriving DecidableEq, Repr

/-- One directory entry as seen by `os.listdir`: a name, plus whether
`os.path.isfile` holds for it (directories and special entries are not
regular files). -/
structure DirEntry where
  name : String
  isFile : Bool
deriving DecidableEq, Repr

/-- A run configuration: the input directory's entries, the consumer count
`NUM_CONSUMERS`, the queue capacity (`maxsize`), the per-file decode
success oracle (whether `Image.open/convert/thumbnail/save` succeeds),
the per-output-name write success oracle, and the encoded thumbnail bytes
for each file. -/
structure Cfg where
  files : List DirEntry
  numConsumers : Nat
  capacity : Nat
  decodeOk : String → Bool
  writeOk : String → Bool
  enc : String → List Nat

/-- `supported = (".jpg", ".jpeg", ".png", ".bmp", ".tiff", ".webp")`. -/
def supported : List String := [".jpg", ".jpeg", ".png", ".bmp", ".tiff", ".webp"]

/-- Python `str.lower()`, at the character level (ASCII case mapping, which
is all that can affect a match against the ASCII extension list). -/
def lowerStr (s : String) : String := String.mk (s.data.map Char.toLower)

/-- Python `str.endswith(t)`: `t` is a suffix of `s`. -/
def endsWithStr (s t : String) : Bool := t.data.isSuffixOf s.data

/-- `f.lower().endswith(supported)`: Python's tuple `endswith` succeeds if
any of the alternatives is a suffix. -/
def hasSupportedExt (f : String) : Bool :=
  supported.any (fun ext => endsWithStr (lowerStr f) ext)

/-- Lexicographic code-point comparison of character lists: the order
Python's `sorted` uses on strings. -/
def leChars : List Char → List Char → Bool
  | [], _ => true
  | _ :: _, [] => false
  | a :: s, b :: t =>
    if a.toNat < b.toNat then true
    else if b.toNat < a.toNat then false
    else leChars s t

/-- Python's `s <= t` on strings: lexicographic by code point. -/
def nameLe (s t : String) : Prop := leChars s.data t.data = true

instance : DecidableRel nameLe :=
  fun s t => inferInstanceAs (Decidable (leChars s.data t.data = true))

/-- `file_list = sorted([f for f in os.listdir(producer_dir)
if os.path.isfile(os.path.join(producer_dir, f)) and
f.lower().endswith(supported)])`. -/
def file_list (files : List DirEntry) : List String :=
  List.insertionSort nameLe
    ((files.filter (fun e => e.isFile && hasSupportedExt e.name)).map (fun e => e.name))

/-- `os.path.splitext(name)[0]`: strip the extension starting at the last
dot, provided some character before that dot is not itself a dot (leading
dots are not extension separators: `splitext(".bashrc") = (".bashrc", "")`). -/
def splitextStem (name : String) : String :=
  let cs := name.data
  match cs.reverse.findIdx? (fun c => c == '.') with
  | none => name
  | some r =>
    let extIndex := cs.length - 1 - r
    if (cs.take extIndex).any (fun c => !(c == '.')) then String.mk (cs.take extIndex)
    else name

/-- `out_name = f"{name_wo_ext}-thumbnail.jpg"` in `consumer_task`. -/
def outName (orig_name : String) : String := splitextStem orig_name ++ "-thumbnail.jpg"

/-- The work items the producer creates, in enqueue order: the files of
`file_list` whose decode/convert/resize/encode succeeds, each paired with
its encoded bytes. -/
def producedItems (cfg : Cfg) : List WorkItem :=
  ((file_list cfg.files).filter cfg.decodeOk).map (fun f => ⟨f, cfg.enc f⟩)

/-- The full sequence of values the producer puts on the queue, in order:
the work items, then `NUM_CONSUMERS` sentinels (`None`). -/
def putSeq (cfg : Cfg) : List (Option WorkItem) :=
  (producedItems cfg).map some ++ List.replicate cfg.numConsumers none

-- sanity checks of the enumeration and naming functions
example : hasSupportedExt "A.JPG" = true := by decide
example : hasSupportedExt "c.txt" = false := by decide
example : splitextStem "a.jpg" = "a" := by decide
example : splitextStem "archive.tar.gz" = "archive.tar" := by decide
example : splitextStem ".bashrc" = ".bashrc" := by decide
example : splitextStem "noext" = "noext" := by decide
example : outName "a.jpg" = "a-thumbnail.jpg" := by decide
example : file_list [⟨"b.png", true⟩, ⟨"a.jpg", true⟩, ⟨"c.txt", true⟩, ⟨"d.jpg", false⟩]
    = ["a.jpg", "b.png"] := by decide

/-- Global state of the running pipeline: the values the producer has not
yet put (its remaining iterations, sentinels included), the queue's current
contents (oldest first), the shared counter's value, the log of output
names written so far (in write order), and one flag per consumer process:
`true` once it has dequeued its sentinel and exited its loop. -/
structure SysState where
  prodPending : List (Option WorkItem)
  queue : List (Option WorkItem)
  counter : Nat
  outputs : List String
  consumers : List Bool
deriving DecidableEq, Repr

/-- Which worker takes the step: the producer (`put`) or consumer `i`. -/
inductive Label where
  | put
  | get (i : Nat)
deriving DecidableEq, Repr

/-- The initial state built by `main`: all of `putSeq` still to produce,
empty queue, `Value('i', 0)` counter, no files written, every consumer in
its loop (`RUNNING`). -/
def init (cfg : Cfg) : SysState :=
  ⟨putSeq cfg, [], 0, [], List.replicate cfg.numConsumers false⟩

/-- One atomic step of the pipeline.
* `put`: `q.put(x)` by the producer — enabled only while the queue holds
  fewer than `capacity` entries (a put blocks on a full queue).
* `getSentinel`: consumer `i` (still in its loop) dequeues `None`, prints,
  and breaks out of the loop.
* `getWorkOk`: consumer `i` dequeues a work item, writes
  `outName` to disk successfully, and increments the counter while holding
  its lock (dequeue-write-increment is one atomic step here: the increment
  is under `counter.get_lock()`, so no interleaving is observable).
* `getWorkFail`: as above, but the disk write raises; the `except` branch
  logs and the loop continues — no counter change, no recorded output.
`get` steps are enabled only on a nonempty queue (a get blocks on empty). -/
inductive Step (cfg : Cfg) : Label → SysState → SysState → Prop where
  | put (s sNext : SysState) (x : Option WorkItem) (rest : List (Option WorkItem)) :
      s.prodPending = x :: rest →
      s.queue.length < cfg.capacity →
      sNext = ⟨rest, s.queue ++ [x], s.counter, s.outputs, s.consumers⟩ →
      Step cfg Label.put s sNext
  | getSentinel (s sNext : SysState) (i : Nat) (rest : List (Option WorkItem)) :
      s.queue = none :: rest →
      s.consumers[i]? = some false →
      sNext = ⟨s.prodPending, rest, s.counter, s.outputs, s.consumers.set i true⟩ →
      Step cfg (Label.get i) s sNext
  | getWorkOk (s sNext : SysState) (i : Nat) (w : WorkItem) (rest : List (Option WorkItem)) :
      s.queue = some w :: rest →
      s.consumers[i]? = some false →
      cfg.writeOk (outName w.source_name) = true →
      sNext = ⟨s.prodPending, rest, s.counter + 1,
               s.outputs ++ [outName w.source_name], s.consumers⟩ →
      Step cfg (Label.get i) s sNext
  | getWorkFail (s sNext : SysState) (i : Nat) (w : WorkItem) (rest : List (Option WorkItem)) :
      s.queue = some w :: rest →
      s.consumers[i]? = some false →
      cfg.writeOk (outName w.source_name) = false →
      sNext = ⟨s.prodPending, rest, s.counter, s.outputs, s.consumers⟩ →
      Step cfg (Label.get i) s sNext

/-- Some worker takes a step. -/
def SStep (cfg : Cfg) (s sNext : SysState) : Prop := ∃ l, Step cfg l s sNext

/-- Reachable from the initial state by any interleaving. -/
def Reach (cfg : Cfg) (s : SysState) : Prop :=
  Relation.ReflTransGen (SStep cfg) (init cfg) s

/-- The pipeline has finished: the producer's loop and sentinel puts are
done, and every consumer has exited its loop — exactly the condition under
which every `join` in `main` returns. -/
def Terminal (s : SysState) : Prop :=
  s.prodPending = [] ∧ ∀ b ∈ s.consumers, b = true

/-- Number of stopped consumers. -/
def nStopped (l : List Bool) : Nat := l.countP (fun b => b)

/-- Number of sentinels in a list of queue values. -/
def nSent (l : List (Option WorkItem)) : Nat := l.countP (fun x => x.isNone)

/-- Counter contribution of a list of dequeued values: one per work item
whose disk write succeeds. -/
def succCount (cfg : Cfg) (l : List (Option WorkItem)) : Nat :=
  l.countP (fun x => match x with
    | some w => cfg.writeOk (outName w.source_name)
    | none => false)

/-- Output names recorded by dequeuing a list of values, in order. -/
def writtenNames (cfg : Cfg) (l : List (Option WorkItem)) : List String :=
  l.filterMap (fun x => match x with
    | some w => if cfg.writeOk (outName w.source_name) then some (outName w.source_name)
                else none
    | none => none)

/-- The run invariant.  `k` values have been put and `d ≤ k` of them have
been dequeued; because a single producer puts in `putSeq` order and each
dequeue atomically removes the queue's head, the dequeued values are
exactly the first `d` entries of `putSeq` and the queue holds entries `d`
to `k-1`.  Counter, written outputs and the number of stopped consumers
are determined by the dequeued prefix. -/
def Inv (cfg : Cfg) (s : SysState) : Prop :=
  ∃ d k, d ≤ k ∧ k ≤ (putSeq cfg).length ∧
    s.prodPending = (putSeq cfg).drop k ∧
    s.queue = ((putSeq cfg).take k).drop d ∧
    s.counter = succCount cfg ((putSeq cfg).take d) ∧
    s.outputs = writtenNames cfg ((putSeq cfg).take d) ∧
    s.consumers.length = cfg.numConsumers ∧
    nStopped s.consumers = nSent ((putSeq cfg).take d)

lemma inv_init (cfg : Cfg) : Inv cfg (init cfg) := by
  refine ⟨0, 0, le_refl 0, Nat.zero_le _, ?_, ?_, ?_, ?_, ?_, ?_⟩ <;>
    simp [init, succCount, writtenNames, nStopped, nSent]

/-- The names of the files the producer turns into work items: the sorted
eligible files whose decode succeeds. -/
def validNames (cfg : Cfg) : List String := (file_list cfg.files).filter cfg.decodeOk

lemma producedItems_eq (cfg : Cfg) :
    producedItems cfg = (validNames cfg).map (fun f => ⟨f, cfg.enc f⟩) := rfl

lemma length_putSeq (cfg : Cfg) :
    (putSeq cfg).length = (producedItems cfg).length + cfg.numConsumers := by
  simp [putSeq]

lemma stopped_of_nStopped_eq_length {l : List Bool} (h : nStopped l = l.length) :
    ∀ b ∈ l, b = true := by
  intro b hb
  have := (List.countP_eq_length.1 h) b hb
  simpa using this

lemma nStopped_le_length (l : List Bool) : nStopped l ≤ l.length :=
  List.countP_le_length _

lemma nStopped_set_true {l : List Bool} {i : Nat} (h : l[i]? = some false) :
    nStopped (l.set i true) = nStopped l + 1 := by
  induction l generalizing i with
  | nil => simp at h
  | cons b t ih =>
    cases i with
    | zero =>
      have hb : b = false := by simpa using h
      subst hb
      simp [nStopped, List.countP_cons]
    | succ j =>
      have hj : t[j]? = some false := by simpa using h
      have ihj := ih hj
      simp only [nStopped] at ihj
      simp only [List.set_cons_succ, nStopped, List.countP_cons, ihj]
      omega

lemma nSent_take (cfg : Cfg) (d : Nat) :
    nSent ((putSeq cfg).take d) =
      min (d - (producedItems cfg).length) cfg.numConsumers := by
  unfold putSeq nSent
  rw [List.take_append_eq_append_take, List.countP_append]
  have h1 : ((List.take d ((producedItems cfg).map some)).countP (fun x => x.isNone)) = 0 := by
    rw [List.countP_eq_zero]
    intro a ha
    have := List.mem_of_mem_take ha
    obtain ⟨w, _, rfl⟩ := List.mem_map.1 this
    simp
  rw [h1, List.take_replicate, List.countP_replicate]
  simp [List.length_map]

lemma succCount_nil (cfg : Cfg) : succCount cfg [] = 0 := rfl

lemma take_succ_eq {α : Type} (l : List α) {d : Nat} (hd : d < l.length) :
    l.take (d + 1) = l.take d ++ [l[d]] := by
  rw [List.take_succ, List.getElem?_eq_getElem hd]
  rfl

lemma inv_step {cfg : Cfg} {l : Label} {s sNext : SysState}
    (hs : Inv cfg s) (h : Step cfg l s sNext) : Inv cfg sNext := by
  obtain ⟨d, k, hdk, hk, hp, hq, hc, ho, hlen, hn⟩ := hs
  cases h with
  | put s sNext x rest hpend hqlen heq =>
    rw [hp] at hpend
    have hklt : k < (putSeq cfg).length := by
      by_contra hge
      rw [List.drop_eq_nil_iff.2 (Nat.le_of_not_lt hge)] at hpend
      exact List.noConfusion hpend
    rw [List.drop_eq_getElem_cons hklt] at hpend
    obtain ⟨hx, hrest⟩ := List.cons.injEq .. ▸ hpend
    refine ⟨d, k + 1, hdk.trans (Nat.le_succ k), hklt, ?_, ?_, ?_, ?_, ?_, ?_⟩ <;>
      subst heq
    · simpa using hrest.symm
    · show s.queue ++ [x] = _
      rw [take_succ_eq _ hklt, List.drop_append_of_le_length, hq, ← hx]
      rw [List.length_take]
      omega
    · exact hc
    · exact ho
    · exact hlen
    · exact hn
  | getSentinel s sNext i rest hq0 hci heq =>
    rw [hq] at hq0
    have hdlt : d < ((putSeq cfg).take k).length := by
      by_contra hge
      rw [List.drop_eq_nil_iff.2 (Nat.le_of_not_lt hge)] at hq0
      exact List.noConfusion hq0
    have hdk2 : d < k := by
      rw [List.length_take] at hdlt; omega
    have hdl : d < (putSeq cfg).length := by omega
    rw [List.drop_eq_getElem_cons hdlt] at hq0
    obtain ⟨hx, hrest⟩ := List.cons.injEq .. ▸ hq0
    rw [List.getElem_take] at hx
    refine ⟨d + 1, k, hdk2, hk, ?_, ?_, ?_, ?_, ?_, ?_⟩ <;> subst heq
    · exact hp
    · exact hrest.symm
    · show s.counter = _
      rw [hc, take_succ_eq _ hdl, succCount, succCount, List.countP_append, hx]
      simp
    · show s.outputs = _
      rw [ho, take_succ_eq _ hdl, writtenNames, writtenNames, List.filterMap_append, hx]
      simp
    · simpa using hlen
    · show nStopped (s.consumers.set i true) = _
      rw [nStopped_set_true hci, hn, take_succ_eq _ hdl, nSent, nSent,
        List.countP_append, hx]
      simp
  | getWorkOk s sNext i w rest hq0 hci hwok heq =>
    rw [hq] at hq0
    have hdlt : d < ((putSeq cfg).take k).length := by
      by_contra hge
      rw [List.drop_eq_nil_iff.2 (Nat.le_of_not_lt hge)] at hq0
      exact List.noConfusion hq0
    have hdk2 : d < k := by
      rw [List.length_take] at hdlt; omega
    have hdl : d < (putSeq cfg).length := by omega
    rw [List.drop_eq_getElem_cons hdlt] at hq0
    obtain ⟨hx, hrest⟩ := List.cons.injEq .. ▸ hq0
    rw [List.getElem_take] at hx
    refine ⟨d + 1, k, hdk2, hk, ?_, ?_, ?_, ?_, ?_, ?_⟩ <;> subst heq
    · exact hp
    · exact hrest.symm
    · show s.counter + 1 = _
      rw [hc, take_succ_eq _ hdl, succCount, succCount, List.countP_append, hx]
      simp [hwok]
    · show s.outputs ++ _ = _
      rw [ho, take_succ_eq _ hdl, writtenNames, writtenNames, List.filterMap_append, hx]
      simp [hwok]
    · exact hlen
    · show nStopped s.consumers = _
      rw [hn, take_succ_eq _ hdl, nSent, nSent, List.countP_append, hx]
      simp
  | getWorkFail s sNext i w rest hq0 hci hwf heq =>
    rw [hq] at hq0
    have hdlt : d < ((putSeq cfg).take k).length := by
      by_contra hge
      rw [List.drop_eq_nil_iff.2 (Nat.le_of_not_lt hge)] at hq0
      exact List.noConfusion hq0
    have hdk2 : d < k := by
      rw [List.length_take] at hdlt; omega
    have hdl : d < (putSeq cfg).length := by omega
    rw [List.drop_eq_getElem_cons hdlt] at hq0
    obtain ⟨hx, hrest⟩ := List.cons.injEq .. ▸ hq0
    rw [List.getElem_take] at hx
    refine ⟨d + 1, k, hdk2, hk, ?_, ?_, ?_, ?_, ?_, ?_⟩ <;> subst heq
    · exact hp
    · exact hrest.symm
    · show s.counter = _
      rw [hc, take_succ_eq _ hdl, succCount, succCount, List.countP_append, hx]
      simp [hwf]
    · show s.outputs = _
      rw [ho, take_succ_eq _ hdl, writtenNames, writtenNames, List.filterMap_append, hx]
      simp [hwf]
    · exact hlen
    · show nStopped s.consumers = _
      rw [hn, take_succ_eq _ hdl, nSent, nSent, List.countP_append, hx]
      simp

lemma inv_reach {cfg : Cfg} {s : SysState} (h : Reach cfg s) : Inv cfg s := by
  induction h with
  | refl => exact inv_init cfg
  | tail _ hstep ih =>
    obtain ⟨l, hl⟩ := hstep
    exact inv_step ih hl

lemma nSent_putSeq (cfg : Cfg) : nSent (putSeq cfg) = cfg.numConsumers := by
  have h := nSent_take cfg (putSeq cfg).length
  rw [List.take_length] at h
  rw [h, length_putSeq]
  omega

lemma succCount_putSeq (cfg : Cfg) :
    succCount cfg (putSeq cfg) =
      (validNames cfg).countP (fun f => cfg.writeOk (outName f)) := by
  unfold succCount putSeq
  rw [List.countP_append, producedItems_eq, List.countP_map, List.countP_map,
    List.countP_replicate]
  simp [Function.comp_def]

lemma writtenNames_putSeq (cfg : Cfg) :
    writtenNames cfg (putSeq cfg) =
      (validNames cfg).filterMap
        (fun f => if cfg.writeOk (outName f) then some (outName f) else none) := by
  unfold writtenNames putSeq
  rw [List.filterMap_append, producedItems_eq, List.filterMap_map, List.filterMap_map]
  have hrep : ∀ n : Nat, (List.replicate n (none : Option WorkItem)).filterMap
      (fun x => match x with
        | some w => if cfg.writeOk (outName w.source_name) then some (outName w.source_name)
                    else none
        | none => none) = [] := by
    intro n
    induction n with
    | zero => rfl
    | succ m ih => simp [List.replicate_succ, ih]
  rw [hrep]
  simp [Function.comp_def]

/-- In any reachable state where the producer is done and every consumer
has stopped, everything has been dequeued: the queue is empty, the counter
holds one per valid file whose write succeeded, and the written outputs are
exactly the successful writes in enqueue order. -/
lemma final_state_eq {cfg : Cfg} {s : SysState} (hN : 1 ≤ cfg.numConsumers)
    (hr : Reach cfg s) (ht : Terminal s) :
    s.counter = (validNames cfg).countP (fun f => cfg.writeOk (outName f)) ∧
    s.outputs = (validNames cfg).filterMap
      (fun f => if cfg.writeOk (outName f) then some (outName f) else none) ∧
    s.queue = [] := by
  obtain ⟨d, k, hdk, hk, hp, hq, hc, ho, hlen, hn⟩ := inv_reach hr
  obtain ⟨hpend, hall⟩ := ht
  have hstop : nStopped s.consumers = cfg.numConsumers := by
    rw [← hlen]
    exact List.countP_eq_length.2 (fun b hb => by simpa using hall b hb)
  have hdge : (putSeq cfg).length ≤ d := by
    rw [hstop, nSent_take] at hn
    rw [length_putSeq]
    omega
  have htake : (putSeq cfg).take d = putSeq cfg := List.take_of_length_le hdge
  refine ⟨?_, ?_, ?_⟩
  · rw [hc, htake, succCount_putSeq]
  · rw [ho, htake, writtenNames_putSeq]
  · rw [hq, List.drop_eq_nil_iff, List.length_take]
    omega

/-- The termination potential: a `put` trades two units for one, a `get`
removes one; every step strictly decreases it. -/
def potential (s : SysState) : Nat := 2 * s.prodPending.length + s.queue.length

lemma potential_decreases {cfg : Cfg} {l : Label} {s sNext : SysState}
    (h : Step cfg l s sNext) : potential sNext < potential s := by
  cases h with
  | put s sNext x rest hpend hql heq =>
    subst heq
    simp [potential, hpend]
    omega
  | getSentinel s sNext i rest hq0 hci heq =>
    subst heq
    simp [potential, hq0]
  | getWorkOk s sNext i w rest hq0 hci hwok heq =>
    subst heq
    simp [potential, hq0]
  | getWorkFail s sNext i w rest hq0 hci hwf heq =>
    subst heq
    simp [potential, hq0]

/-- Progress: an invariant-satisfying state that is not terminal always has
an enabled step — the pipeline never deadlocks (for at least one consumer
and a queue capacity of at least 1). -/
lemma progress {cfg : Cfg} {s : SysState} (hN : 1 ≤ cfg.numConsumers)
    (hcap : 1 ≤ cfg.capacity) (hinv : Inv cfg s) (ht : ¬ Terminal s) :
    ∃ l sNext, Step cfg l s sNext := by
  obtain ⟨d, k, hdk, hk, hp, hq, hc, ho, hlen, hn⟩ := hinv
  have hrunning : (¬ ∀ b ∈ s.consumers, b = true) → ∃ i : Nat, s.consumers[i]? = some false := by
    intro hnall
    push_neg at hnall
    obtain ⟨b, hb, hbne⟩ := hnall
    have hbf : b = false := by
      cases b
      · rfl
      · exact absurd rfl hbne
    obtain ⟨i, hi, hig⟩ := List.mem_iff_getElem.1 hb
    exact ⟨i, by rw [List.getElem?_eq_getElem hi, hig, hbf]⟩
  have hconsume : (∃ i : Nat, s.consumers[i]? = some false) → s.queue ≠ [] →
      ∃ l sNext, Step cfg l s sNext := by
    intro hi hqe
    obtain ⟨i, hif⟩ := hi
    cases hqy : s.queue with
    | nil => exact absurd hqy hqe
    | cons y rest2 =>
      cases y with
      | none =>
        exact ⟨Label.get i, _, Step.getSentinel s _ i rest2 hqy hif rfl⟩
      | some w =>
        cases hw : cfg.writeOk (outName w.source_name) with
        | true => exact ⟨Label.get i, _, Step.getWorkOk s _ i w rest2 hqy hif hw rfl⟩
        | false => exact ⟨Label.get i, _, Step.getWorkFail s _ i w rest2 hqy hif hw rfl⟩
  by_cases hpend : s.prodPending = []
  · have hnall : ¬ ∀ b ∈ s.consumers, b = true := fun hall => ht ⟨hpend, hall⟩
    have hkeq : (putSeq cfg).length ≤ k := by
      rw [hp, List.drop_eq_nil_iff] at hpend
      exact hpend
    have hqne : s.queue ≠ [] := by
      intro hqe
      rw [hqe] at hq
      have hdge : (putSeq cfg).length ≤ d := by
        have := List.drop_eq_nil_iff.1 hq.symm
        rw [List.length_take] at this
        omega
      have htake : (putSeq cfg).take d = putSeq cfg := List.take_of_length_le hdge
      rw [htake, nSent_putSeq, ← hlen] at hn
      exact hnall (stopped_of_nStopped_eq_length hn)
    exact hconsume (hrunning hnall) hqne
  · cases hpx : s.prodPending with
    | nil => exact absurd hpx hpend
    | cons x rest =>
      by_cases hql : s.queue.length < cfg.capacity
      · exact ⟨Label.put, _, Step.put s _ x rest hpx hql rfl⟩
      · have hqne : s.queue ≠ [] := by
          intro hqe
          rw [hqe] at hql
          simp at hql
          omega
        refine hconsume (hrunning ?_) hqne
        intro hall
        have hstop : nStopped s.consumers = cfg.numConsumers := by
          rw [← hlen]
          exact List.countP_eq_length.2 (fun b hb => by simpa using hall b hb)
        have hdge : (putSeq cfg).length ≤ d := by
          rw [hstop, nSent_take] at hn
          rw [length_putSeq]
          omega
        have : s.prodPending = [] := by
          rw [hp, List.drop_eq_nil_iff]
          omega
        exact hpend this

lemma leChars_total : ∀ s t : List Char, leChars s t = true ∨ leChars t s = true := by
  intro s
  induction s with
  | nil => intro t; left; rfl
  | cons a s ih =>
    intro t
    cases t with
    | nil => right; rfl
    | cons b t =>
      simp only [leChars]
      rcases Nat.lt_trichotomy a.toNat b.toNat with h | h | h
      · left
        rw [if_pos h]
      · rw [if_neg (by omega), if_neg (by omega), if_neg (by omega), if_neg (by omega)]
        exact ih t
      · right
        rw [if_pos h]

lemma leChars_trans : ∀ s t u : List Char,
    leChars s t = true → leChars t u = true → leChars s u = true := by
  intro s
  induction s with
  | nil => intro t u h1 h2; rfl
  | cons a s ih =>
    intro t u h1 h2
    cases t with
    | nil => exact absurd h1 (by simp [leChars])
    | cons b t2 =>
      cases u with
      | nil => exact absurd h2 (by simp [leChars])
      | cons c u2 =>
        simp only [leChars] at h1 h2 ⊢
        by_cases hab : a.toNat < b.toNat <;> by_cases hba : b.toNat < a.toNat <;>
          by_cases hbc : b.toNat < c.toNat <;> by_cases hcb : c.toNat < b.toNat <;>
          by_cases hac : a.toNat < c.toNat <;> by_cases hca : c.toNat < a.toNat <;>
          simp only [hab, hba, hbc, hcb, hac, hca, if_true, if_false] at h1 h2 ⊢ <;>
          first
          | rfl
          | omega
          | exact ih t2 u2 h1 h2
          | exact absurd h1 (by decide)
          | exact absurd h2 (by decide)

instance : IsTotal String nameLe := ⟨fun s t => leChars_total s.data t.data⟩

instance : IsTrans String nameLe := ⟨fun s t u => leChars_trans s.data t.data u.data⟩

lemma filterMap_replicate_none {α β : Type} (f : α → Option β) (a : α)
    (h : f a = none) (n : Nat) : (List.replicate n a).filterMap f = [] := by
  induction n with
  | zero => rfl
  | succ m ih => simp [List.replicate_succ, h, ih]

/-- The source names of the work items actually enqueued, in enqueue
order: exactly the sorted eligible files whose decode succeeded. -/
lemma enqueuedNames_eq (cfg : Cfg) :
    (putSeq cfg).filterMap (fun x => Option.map (fun w => w.source_name) x)
      = (file_list cfg.files).filter cfg.decodeOk := by
  unfold putSeq
  rw [List.filterMap_append, producedItems_eq,
    filterMap_replicate_none _ _ rfl, List.filterMap_map, List.filterMap_map,
    List.append_nil]
  have h2 : ∀ l : List String,
      l.filterMap (((fun x => Option.map (fun w : WorkItem => w.source_name) x) ∘ some) ∘
        (fun f : String => (⟨f, cfg.enc f⟩ : WorkItem))) = l := by
    intro l
    induction l with
    | nil => rfl
    | cons a t ih => simp only [List.filterMap_cons, Function.comp_apply, Option.map_some']
                     rw [ih]
  exact h2 (validNames cfg)

/-- Observable process outcome of `main`. -/
inductive MainResult where
  | fatalConfig
  | completed (count : Nat)
deriving DecidableEq, Repr

/-- The behavior of `main`: if `os.path.isdir(producer_dir)` fails, it
prints an error to `stderr` and returns at once — before the queue, the
`Value('i', 0)` counter, the producer or any consumer is created, so no
pipeline run exists and `.fatalConfig` is the only outcome.  Otherwise it
creates the queue and counter, starts the producer and the consumers,
joins them all and prints the final counter value: the outcome is
`.completed c` exactly when a complete run of the pipeline ends with
counter value `c`.  (`main` fixes `numConsumers = max 1 (cpu_count() - 1)`
and `capacity = 4 * numConsumers`; the embedding keeps both as parameters
subject to the same floors.) -/
def MainRun (dirExists : Bool) (cfg : Cfg) : MainResult → Prop
  | MainResult.fatalConfig => dirExists = false
  | MainResult.completed c => dirExists = true ∧
      ∃ s, Reach cfg s ∧ Terminal s ∧ s.counter = c

/-- From any invariant state, some interleaving reaches a terminal state
(by induction on the potential). -/
lemma reach_terminal_from (cfg : Cfg) (hN : 1 ≤ cfg.numConsumers)
    (hcap : 1 ≤ cfg.capacity) :
    ∀ n s, potential s ≤ n → Inv cfg s →
      ∃ t, Relation.ReflTransGen (SStep cfg) s t ∧ Terminal t := by
  intro n
  induction n using Nat.strong_induction_on with
  | _ n ih =>
    intro s hpot hinv
    by_cases ht : Terminal s
    · exact ⟨s, Relation.ReflTransGen.refl, ht⟩
    · obtain ⟨l, sNext, hstep⟩ := progress hN hcap hinv ht
      have hdec := potential_decreases hstep
      obtain ⟨t, htr, htt⟩ :=
        ih (potential sNext) (by omega) sNext (le_refl _) (inv_step hinv hstep)
      exact ⟨t, Relation.ReflTransGen.head ⟨l, hstep⟩ htr, htt⟩

/-! Concrete runs used to witness the theorems below. -/

/-- One valid image `a.jpg`, one consumer, queue capacity 1, all decodes
and writes succeed. -/
def cfgW : Cfg := ⟨[⟨"a.jpg", true⟩], 1, 1, fun _ => true, fun _ => true, fun _ => []⟩

def itemA : WorkItem := ⟨"a.jpg", []⟩

def w0 : SysState := ⟨[some itemA, none], [], 0, [], [false]⟩
def w1 : SysState := ⟨[none], [some itemA], 0, [], [false]⟩
def w2 : SysState := ⟨[none], [], 1, ["a-thumbnail.jpg"], [false]⟩
def w3 : SysState := ⟨[], [none], 1, ["a-thumbnail.jpg"], [false]⟩
def w4 : SysState := ⟨[], [], 1, ["a-thumbnail.jpg"], [true]⟩

lemma stepW01 : Step cfgW Label.put w0 w1 :=
  Step.put w0 w1 (some itemA) [none] rfl (by decide) (by decide)

lemma stepW12 : Step cfgW (Label.get 0) w1 w2 :=
  Step.getWorkOk w1 w2 0 itemA [] rfl (by decide) (by decide) (by decide)

lemma stepW23 : Step cfgW Label.put w2 w3 :=
  Step.put w2 w3 none [] rfl (by decide) (by decide)

lemma stepW34 : Step cfgW (Label.get 0) w3 w4 :=
  Step.getSentinel w3 w4 0 [] rfl (by decide) (by decide)

lemma reachW4 : Reach cfgW w4 := by
  have h0 : init cfgW = w0 := by decide
  rw [Reach, h0]
  exact Relation.ReflTransGen.head ⟨_, stepW01⟩
    (Relation.ReflTransGen.head ⟨_, stepW12⟩
      (Relation.ReflTransGen.head ⟨_, stepW23⟩
        (Relation.ReflTransGen.single ⟨_, stepW34⟩)))

lemma terminalW4 : Terminal w4 := by
  refine ⟨rfl, ?_⟩
  intro b hb
  simpa [w4] using hb

/-- Two files `a.jpg` and `b.jpg`; `b.jpg` is corrupt (its decode
raises), so the producer skips it. -/
def cfgE : Cfg :=
  ⟨[⟨"a.jpg", true⟩, ⟨"b.jpg", true⟩], 1, 1, fun n => n == "a.jpg", fun _ => true,
    fun _ => []⟩

lemma stepE01 : Step cfgE Label.put w0 w1 :=
  Step.put w0 w1 (some itemA) [none] rfl (by decide) (by decide)

lemma stepE12 : Step cfgE (Label.get 0) w1 w2 :=
  Step.getWorkOk w1 w2 0 itemA [] rfl (by decide) (by decide) (by decide)

lemma stepE23 : Step cfgE Label.put w2 w3 :=
  Step.put w2 w3 none [] rfl (by decide) (by decide)

lemma stepE34 : Step cfgE (Label.get 0) w3 w4 :=
  Step.getSentinel w3 w4 0 [] rfl (by decide) (by decide)

lemma reachE4 : Reach cfgE w4 := by
  have h0 : init cfgE = w0 := by decide
  rw [Reach, h0]
  exact Relation.ReflTransGen.head ⟨_, stepE01⟩
    (Relation.ReflTransGen.head ⟨_, stepE12⟩
      (Relation.ReflTransGen.head ⟨_, stepE23⟩
        (Relation.ReflTransGen.single ⟨_, stepE34⟩)))

/-- One valid image `a.jpg`, but every disk write fails. -/
def cfgF : Cfg := ⟨[⟨"a.jpg", true⟩], 1, 1, fun _ => true, fun _ => false, fun _ => []⟩

def f2 : SysState := ⟨[none], [], 0, [], [false]⟩
def f3 : SysState := ⟨[], [none], 0, [], [false]⟩
def f4 : SysState := ⟨[], [], 0, [], [true]⟩

lemma stepF01 : Step cfgF Label.put w0 w1 :=
  Step.put w0 w1 (some itemA) [none] rfl (by decide) (by decide)

lemma stepF12 : Step cfgF (Label.get 0) w1 f2 :=
  Step.getWorkFail w1 f2 0 itemA [] rfl (by decide) (by decide) (by decide)

lemma reachF1 : Reach cfgF w1 := by
  have h0 : init cfgF = w0 := by decide
  rw [Reach, h0]
  exact Relation.ReflTransGen.single ⟨_, stepF01⟩

/-- Two valid images `a.jpg` and `a.png` whose stems collide; one
consumer, capacity 1, all decodes and writes succeed. -/
def cfgC : Cfg :=
  ⟨[⟨"a.jpg", true⟩, ⟨"a.png", true⟩], 1, 1, fun _ => true, fun _ => true, fun _ => []⟩

def itemAp : WorkItem := ⟨"a.png", []⟩

def c0 : SysState := ⟨[some itemA, some itemAp, none], [], 0, [], [false]⟩
def c1 : SysState := ⟨[some itemAp, none], [some itemA], 0, [], [false]⟩
def c2 : SysState := ⟨[some itemAp, none], [], 1, ["a-thumbnail.jpg"], [false]⟩
def c3 : SysState := ⟨[none], [some itemAp], 1, ["a-thumbnail.jpg"], [false]⟩
def c4 : SysState :=
  ⟨[none], [], 2, ["a-thumbnail.jpg", "a-thumbnail.jpg"], [false]⟩
def c5 : SysState :=
  ⟨[], [none], 2, ["a-thumbnail.jpg", "a-thumbnail.jpg"], [false]⟩
def c6 : SysState :=
  ⟨[], [], 2, ["a-thumbnail.jpg", "a-thumbnail.jpg"], [true]⟩

lemma stepC01 : Step cfgC Label.put c0 c1 :=
  Step.put c0 c1 (some itemA) [some itemAp, none] rfl (by decide) (by decide)

lemma stepC12 : Step cfgC (Label.get 0) c1 c2 :=
  Step.getWorkOk c1 c2 0 itemA [] rfl (by decide) (by decide) (by decide)

lemma stepC23 : Step cfgC Label.put c2 c3 :=
  Step.put c2 c3 (some itemAp) [none] rfl (by decide) (by decide)

lemma stepC34 : Step cfgC (Label.get 0) c3 c4 :=
  Step.getWorkOk c3 c4 0 itemAp [] rfl (by decide) (by decide) (by decide)

lemma stepC45 : Step cfgC Label.put c4 c5 :=
  Step.put c4 c5 none [] rfl (by decide) (by decide)

lemma stepC56 : Step cfgC (Label.get 0) c5 c6 :=
  Step.getSentinel c5 c6 0 [] rfl (by decide) (by decide)

lemma reachC6 : Reach cfgC c6 := by
  have h0 : init cfgC = c0 := by decide
  rw [Reach, h0]
  exact Relation.ReflTransGen.head ⟨_, stepC01⟩
    (Relation.ReflTransGen.head ⟨_, stepC12⟩
      (Relation.ReflTransGen.head ⟨_, stepC23⟩
        (Relation.ReflTransGen.head ⟨_, stepC34⟩
          (Relation.ReflTransGen.head ⟨_, stepC45⟩
            (Relation.ReflTransGen.single ⟨_, stepC56⟩)))))

lemma terminalC6 : Terminal c6 := by
  refine ⟨rfl, ?_⟩
  intro b hb
  simpa [c6] using hb

lemma counter_le_step {cfg : Cfg} {l : Label} {s sNext : SysState}
    (h : Step cfg l s sNext) : s.counter ≤ sNext.counter := by
  cases h with
  | put s sNext x rest h1 h2 heq => subst heq; exact le_refl _
  | getSentinel s sNext i rest h1 h2 heq => subst heq; exact le_refl _
  | getWorkOk s sNext i w rest h1 h2 h3 heq => subst heq; exact Nat.le_succ _
  | getWorkFail s sNext i w rest h1 h2 h3 heq => subst heq; exact le_refl _

lemma counter_le_steps {cfg : Cfg} {s sNext : SysState}
    (h : Relation.ReflTransGen (SStep cfg) s sNext) : s.counter ≤ sNext.counter := by
  induction h with
  | refl => exact le_refl _
  | tail _ hstep ih =>
    obtain ⟨l, hl⟩ := hstep
    exact le_trans ih (counter_le_step hl)

/-- C1.  Conservation: for every run configuration with consumer-pool size
N ≥ 1 and queue capacity ≥ 1 in which every disk write succeeds, every
complete run (a reachable state in which the producer has finished and all
consumers have exited, i.e. all of the orchestrator's joins have returned)
ends with the shared counter equal to exactly K, the number of eligible
input files whose decode succeeds (the valid images). -/
theorem claim_C1_conservation (cfg : Cfg)
    (hN : 1 ≤ cfg.numConsumers) (_hcap : 1 ≤ cfg.capacity)
    (hw : ∀ name, cfg.writeOk name = true)
    (s : SysState) (hr : Reach cfg s) (ht : Terminal s) :
    s.counter = ((file_list cfg.files).filter cfg.decodeOk).length := by
  have h := (final_state_eq hN hr ht).1
  rw [h, validNames]
  exact List.countP_eq_length.2 (fun f _ => hw (outName f))

/-- Witness for C1: the concrete run of `cfgW` (one valid image, one
consumer, capacity 1) ends with counter 1 = K. -/
theorem claim_C1_conservation_witness :
    1 ≤ cfgW.numConsumers ∧ 1 ≤ cfgW.capacity ∧
    w4.counter = ((file_list cfgW.files).filter cfgW.decodeOk).length :=
  ⟨by decide, by decide,
    claim_C1_conservation cfgW (by decide) (by decide) (fun _ => rfl) w4 reachW4
      terminalW4⟩

/-- C2.  Termination and deadlock freedom, for any consumer count N ≥ 1
and any queue capacity ≥ 1 (capacity 1 included): a terminal state —
producer finished, every consumer `STOPPED` — is reached from the initial
state; from every reachable state some interleaving still reaches a
terminal state; a reachable state with no enabled step is terminal (no
deadlock); and every step strictly decreases a natural-valued potential,
so no run goes on forever: under every interleaving the pipeline reaches
the terminal state, and the orchestrator's joins all return. -/
theorem claim_C2_termination (cfg : Cfg)
    (hN : 1 ≤ cfg.numConsumers) (hcap : 1 ≤ cfg.capacity) :
    (∃ t, Reach cfg t ∧ Terminal t) ∧
    (∀ s, Reach cfg s → ∃ t, Relation.ReflTransGen (SStep cfg) s t ∧ Terminal t) ∧
    (∀ s, Reach cfg s → (¬ ∃ l sNext, Step cfg l s sNext) → Terminal s) ∧
    (∀ l s sNext, Step cfg l s sNext → potential sNext < potential s) := by
  refine ⟨?_, ?_, ?_, ?_⟩
  · obtain ⟨t, htr, htt⟩ := reach_terminal_from cfg hN hcap (potential (init cfg))
      (init cfg) (le_refl _) (inv_init cfg)
    exact ⟨t, htr, htt⟩
  · intro s hr
    exact reach_terminal_from cfg hN hcap (potential s) s (le_refl _) (inv_reach hr)
  · intro s hr hstuck
    by_contra ht
    exact hstuck (progress hN hcap (inv_reach hr) ht)
  · intro l s sNext h
    exact potential_decreases h

/-- Witness for C2 at the concrete configuration `cfgW` (N = 1,
capacity = 1). -/
theorem claim_C2_termination_witness :
    (∃ t, Reach cfgW t ∧ Terminal t) ∧
    (∀ s, Reach cfgW s → ∃ t, Relation.ReflTransGen (SStep cfgW) s t ∧ Terminal t) ∧
    (∀ s, Reach cfgW s → (¬ ∃ l sNext, Step cfgW l s sNext) → Terminal s) ∧
    (∀ l s sNext, Step cfgW l s sNext → potential sNext < potential s) :=
  claim_C2_termination cfgW (by decide) (by decide)

/-- C4.  Sentinel protocol: the producer's put sequence is the work items
followed by exactly `NumConsumers` sentinels (so every sentinel is
enqueued after the last work item, and exactly N are ever enqueued); in
every reachable state the number of consumers that have stopped plus the
number of sentinels still in the queue or still to be put equals N — each
stopped consumer has consumed exactly one sentinel; and a dequeue step by
consumer `i` requires `i` to be still running (once stopped, a consumer
never dequeues anything again, so it never processes a work item after its
sentinel), while dequeuing a sentinel stops `i` at once. -/
theorem claim_C4_sentinel_protocol (cfg : Cfg) :
    (putSeq cfg = (producedItems cfg).map some ++
        List.replicate cfg.numConsumers none ∧
      nSent (putSeq cfg) = cfg.numConsumers) ∧
    (∀ s, Reach cfg s →
      nStopped s.consumers + nSent s.queue + nSent s.prodPending = cfg.numConsumers) ∧
    (∀ s sNext i, Step cfg (Label.get i) s sNext →
      s.consumers[i]? = some false ∧
      (s.queue.head? = some none → sNext.consumers[i]? = some true)) := by
  refine ⟨⟨rfl, nSent_putSeq cfg⟩, ?_, ?_⟩
  · intro s hr
    obtain ⟨d, k, hdk, hk, hp, hq, hc, ho, hlen, hn⟩ := inv_reach hr
    have h1 : (putSeq cfg).take k =
        (putSeq cfg).take d ++ ((putSeq cfg).take k).drop d := by
      conv_lhs => rw [← List.take_append_drop d ((putSeq cfg).take k)]
      rw [List.take_take, Nat.min_eq_left hdk]
    have h2 : nSent (putSeq cfg) =
        nSent ((putSeq cfg).take k) + nSent ((putSeq cfg).drop k) := by
      conv_lhs => rw [← List.take_append_drop k (putSeq cfg)]
      exact List.countP_append _ _ _
    rw [hn, hq, hp, ← nSent_putSeq cfg, h2]
    conv_rhs => rw [h1]
    unfold nSent
    rw [List.countP_append]
  · intro s sNext i hstep
    cases hstep with
    | getSentinel s sNext i rest h1 h2 heq =>
      refine ⟨h2, fun _ => ?_⟩
      subst heq
      obtain ⟨hlt, _⟩ := List.getElem?_eq_some.1 h2
      simp [List.getElem?_set, hlt]
    | getWorkOk s sNext i w rest h1 h2 h3 heq =>
      refine ⟨h2, fun hh => ?_⟩
      rw [h1] at hh
      simp at hh
    | getWorkFail s sNext i w rest h1 h2 h3 heq =>
      refine ⟨h2, fun hh => ?_⟩
      rw [h1] at hh
      simp at hh

/-- Witness for C4: sentinel conservation evaluated on a state of the
concrete run of `cfgW`, and the dequeue-requires-running property at the
concrete sentinel step. -/
theorem claim_C4_sentinel_protocol_witness :
    (nStopped w4.consumers + nSent w4.queue + nSent w4.prodPending
        = cfgW.numConsumers) ∧
    w3.consumers[0]? = some false :=
  ⟨(claim_C4_sentinel_protocol cfgW).2.1 w4 reachW4,
    ((claim_C4_sentinel_protocol cfgW).2.2 w3 w4 0 stepW34).1⟩

/-- C9.  Completion-counter invariant: the counter starts at 0; every
single step leaves it unchanged or adds exactly 1 (the increment is one
atomic read-modify-write, performed under the lock shared by all
consumers, so no update is lost); it is monotone along every run; and the
only step that changes it is a consumer dequeuing a work item whose disk
write succeeds. -/
theorem claim_C9_counter_invariant (cfg : Cfg) :
    (init cfg).counter = 0 ∧
    (∀ l s sNext, Step cfg l s sNext → s.counter ≤ sNext.counter) ∧
    (∀ s sNext, Relation.ReflTransGen (SStep cfg) s sNext →
      s.counter ≤ sNext.counter) ∧
    (∀ l s sNext, Step cfg l s sNext →
      sNext.counter = s.counter ∨ sNext.counter = s.counter + 1) ∧
    (∀ l s sNext, Step cfg l s sNext → sNext.counter = s.counter + 1 →
      ∃ i w rest, l = Label.get i ∧ s.queue = some w :: rest ∧
        cfg.writeOk (outName w.source_name) = true ∧
        sNext.outputs = s.outputs ++ [outName w.source_name]) := by
  refine ⟨rfl, fun l s sNext h => counter_le_step h,
    fun s sNext h => counter_le_steps h, ?_, ?_⟩
  · intro l s sNext h
    cases h with
    | put s sNext x rest h1 h2 heq => subst heq; exact Or.inl rfl
    | getSentinel s sNext i rest h1 h2 heq => subst heq; exact Or.inl rfl
    | getWorkOk s sNext i w rest h1 h2 h3 heq => subst heq; exact Or.inr rfl
    | getWorkFail s sNext i w rest h1 h2 h3 heq => subst heq; exact Or.inl rfl
  · intro l s sNext h hinc
    cases h with
    | put s sNext x rest h1 h2 heq =>
      subst heq
      dsimp only at hinc
      exact absurd hinc (by omega)
    | getSentinel s sNext i rest h1 h2 heq =>
      subst heq
      dsimp only at hinc
      exact absurd hinc (by omega)
    | getWorkOk s sNext i w rest h1 h2 h3 heq =>
      subst heq
      exact ⟨i, w, rest, rfl, h1, h3, rfl⟩
    | getWorkFail s sNext i w rest h1 h2 h3 heq =>
      subst heq
      dsimp only at hinc
      exact absurd hinc (by omega)

/-- Witness for C9: the counter facts evaluated on concrete steps of the
`cfgW` run. -/
theorem claim_C9_counter_invariant_witness :
    (init cfgW).counter = 0 ∧ w1.counter ≤ w2.counter ∧
    (w2.counter = w1.counter ∨ w2.counter = w1.counter + 1) :=
  ⟨(claim_C9_counter_invariant cfgW).1,
    (claim_C9_counter_invariant cfgW).2.1 _ w1 w2 stepW12,
    (claim_C9_counter_invariant cfgW).2.2.2.1 _ w1 w2 stepW12⟩

/-- C5.  Deterministic enumeration and enqueue order: `file_list` holds
exactly the names of the directory's direct entries that are regular files
with a recognized image extension (matched case-insensitively against
`.jpg .jpeg .png .bmp .tiff .webp`); it is sorted in ascending
lexicographic (code-point) order; the source names of the enqueued work
items, in enqueue order, are exactly the files of `file_list` whose decode
succeeds and are therefore also in ascending lexicographic order;
subdirectories and non-matching entries never appear. -/
theorem claim_C5_enumeration (cfg : Cfg) :
    (∀ f, f ∈ file_list cfg.files ↔
      ∃ e ∈ cfg.files, e.name = f ∧ e.isFile = true ∧ hasSupportedExt f = true) ∧
    List.Sorted nameLe (file_list cfg.files) ∧
    (putSeq cfg).filterMap (fun x => Option.map (fun w => w.source_name) x)
      = (file_list cfg.files).filter cfg.decodeOk ∧
    List.Sorted nameLe ((file_list cfg.files).filter cfg.decodeOk) := by
  refine ⟨?_, List.sorted_insertionSort nameLe _, enqueuedNames_eq cfg,
    (List.sorted_insertionSort nameLe _).filter cfg.decodeOk⟩
  intro f
  rw [file_list, (List.perm_insertionSort nameLe _).mem_iff, List.mem_map]
  constructor
  · rintro ⟨e, he, rfl⟩
    rw [List.mem_filter] at he
    obtain ⟨hmem, hcond⟩ := he
    rw [Bool.and_eq_true] at hcond
    exact ⟨e, hmem, rfl, hcond.1, hcond.2⟩
  · rintro ⟨e, hmem, rfl, hfile, hext⟩
    exact ⟨e, List.mem_filter.2 ⟨hmem, by rw [Bool.and_eq_true]; exact ⟨hfile, hext⟩⟩, rfl⟩

/-- Witness for C5: membership characterization evaluated at a concrete
file of a concrete directory. -/
theorem claim_C5_enumeration_witness :
    "a.jpg" ∈ file_list cfgW.files ↔
      ∃ e ∈ cfgW.files, e.name = "a.jpg" ∧ e.isFile = true ∧
        hasSupportedExt "a.jpg" = true :=
  (claim_C5_enumeration cfgW).1 "a.jpg"

/-- Every work item the producer enqueues is for a file whose decode
succeeded. -/
lemma decodeOk_of_mem_putSeq {cfg : Cfg} {w : WorkItem} (hw : some w ∈ putSeq cfg) :
    cfg.decodeOk w.source_name = true := by
  rw [putSeq, List.mem_append] at hw
  rcases hw with hw | hw
  · rw [List.mem_map] at hw
    obtain ⟨w2, hw2, heq⟩ := hw
    have hww : w2 = w := Option.some.inj heq
    rw [producedItems_eq, List.mem_map] at hw2
    obtain ⟨g, hg, hgw⟩ := hw2
    have hname : w.source_name = g := by
      rw [← hww, ← hgw]
    rw [hname]
    exact (List.mem_filter.1 hg).2
  · exact absurd (List.eq_of_mem_replicate hw) (by simp)

/-- C6.  Producer per-file error recovery: if a file's
decode/convert/resize/encode step raises (`decodeOk f = false`) then no
work item for that file is ever enqueued, the file is excluded from the
valid set, all `NumConsumers` sentinels are still enqueued, every other
eligible file is still enqueued in order (the run is not aborted), and in
every complete run the counter counts only files of the valid set — never
the failed file. -/
theorem claim_C6_producer_error_recovery (cfg : Cfg) (f : String)
    (hf : cfg.decodeOk f = false) :
    (∀ w : WorkItem, some w ∈ putSeq cfg → w.source_name ≠ f) ∧
    f ∉ validNames cfg ∧
    nSent (putSeq cfg) = cfg.numConsumers ∧
    (putSeq cfg).filterMap (fun x => Option.map (fun w => w.source_name) x)
      = (file_list cfg.files).filter cfg.decodeOk ∧
    (∀ s, 1 ≤ cfg.numConsumers → Reach cfg s → Terminal s →
      s.counter = (validNames cfg).countP (fun g => cfg.writeOk (outName g))) := by
  refine ⟨?_, ?_, nSent_putSeq cfg, enqueuedNames_eq cfg, ?_⟩
  · intro w hw hwf
    have hdg := decodeOk_of_mem_putSeq hw
    rw [hwf, hf] at hdg
    exact Bool.noConfusion hdg
  · intro hmem
    have := (List.mem_filter.1 hmem).2
    rw [hf] at this
    exact Bool.noConfusion this
  · intro s hN hr ht
    exact (final_state_eq hN hr ht).1

/-- Witness for C6: in `cfgE` the corrupt `b.jpg` is skipped while the
run still completes and counts only `a.jpg`. -/
theorem claim_C6_producer_error_recovery_witness :
    (∀ w : WorkItem, some w ∈ putSeq cfgE → w.source_name ≠ "b.jpg") ∧
    "b.jpg" ∉ validNames cfgE ∧
    nSent (putSeq cfgE) = cfgE.numConsumers ∧
    (putSeq cfgE).filterMap (fun x => Option.map (fun w => w.source_name) x)
      = (file_list cfgE.files).filter cfgE.decodeOk ∧
    (∀ s, 1 ≤ cfgE.numConsumers → Reach cfgE s → Terminal s →
      s.counter = (validNames cfgE).countP (fun g => cfgE.writeOk (outName g))) :=
  claim_C6_producer_error_recovery cfgE "b.jpg" (by decide)

/-- C7.  Consumer per-item write error recovery: when a consumer dequeues
a work item and the disk write fails, the counter is not incremented, no
output is recorded, no consumer stops (consumer `i` is still running), and
the run still completes: some continuation from the resulting state
reaches a terminal state, in which every consumer — `i` included — has
consumed its sentinel and stopped. -/
theorem claim_C7_consumer_error_recovery (cfg : Cfg) (i : Nat)
    (s sNext : SysState) (w : WorkItem) (hr : Reach cfg s)
    (hstep : Step cfg (Label.get i) s sNext)
    (hhead : s.queue.head? = some (some w))
    (hfail : cfg.writeOk (outName w.source_name) = false) :
    sNext.counter = s.counter ∧ sNext.outputs = s.outputs ∧
    sNext.consumers = s.consumers ∧ sNext.consumers[i]? = some false ∧
    (1 ≤ cfg.numConsumers → 1 ≤ cfg.capacity →
      ∃ t, Relation.ReflTransGen (SStep cfg) sNext t ∧ Terminal t) := by
  have hinv2 : Inv cfg sNext := inv_step (inv_reach hr) hstep
  cases hstep with
  | getSentinel s sNext i rest h1 h2 heq =>
    rw [h1] at hhead
    simp at hhead
  | getWorkOk s sNext i w2 rest h1 h2 h3 heq =>
    rw [h1] at hhead
    have hw2 : w2 = w := by simpa using hhead
    rw [hw2] at h3
    rw [h3] at hfail
    exact Bool.noConfusion hfail
  | getWorkFail s sNext i w2 rest h1 h2 h3 heq =>
    subst heq
    refine ⟨rfl, rfl, rfl, h2, ?_⟩
    intro hN hcap
    exact reach_terminal_from cfg hN hcap (potential _) _ (le_refl _) hinv2

/-- Witness for C7: the concrete failing write in the `cfgF` run (every
write fails). -/
theorem claim_C7_consumer_error_recovery_witness :
    f2.counter = w1.counter ∧ f2.outputs = w1.outputs ∧
    f2.consumers = w1.consumers ∧ f2.consumers[0]? = some false ∧
    (1 ≤ cfgF.numConsumers → 1 ≤ cfgF.capacity →
      ∃ t, Relation.ReflTransGen (SStep cfgF) f2 t ∧ Terminal t) :=
  claim_C7_consumer_error_recovery cfgF 0 w1 f2 itemA reachF1 stepF12 rfl rfl

/-- C8.  Fatal configuration error: when the input directory does not
exist, `main` reports the error and returns before starting any worker, so
the fatal outcome — and no completed outcome — is possible; when the
directory exists, the fatal outcome is impossible and a completed outcome
always exists, whatever the per-item decode and write failures are: only
the missing-directory error changes the process outcome. -/
theorem claim_C8_fatal_config (cfg : Cfg)
    (hN : 1 ≤ cfg.numConsumers) (hcap : 1 ≤ cfg.capacity) :
    MainRun false cfg MainResult.fatalConfig ∧
    (∀ c, ¬ MainRun false cfg (MainResult.completed c)) ∧
    ¬ MainRun true cfg MainResult.fatalConfig ∧
    (∃ c, MainRun true cfg (MainResult.completed c)) := by
  refine ⟨rfl, ?_, ?_, ?_⟩
  · intro c h
    exact Bool.noConfusion h.1
  · intro h
    exact Bool.noConfusion h
  · obtain ⟨t, htr, htt⟩ := reach_terminal_from cfg hN hcap (potential (init cfg))
      (init cfg) (le_refl _) (inv_init cfg)
    exact ⟨t.counter, rfl, t, htr, htt, rfl⟩

/-- Witness for C8 at the concrete configuration `cfgW`. -/
theorem claim_C8_fatal_config_witness :
    MainRun false cfgW MainResult.fatalConfig ∧
    (∀ c, ¬ MainRun false cfgW (MainResult.completed c)) ∧
    ¬ MainRun true cfgW MainResult.fatalConfig ∧
    (∃ c, MainRun true cfgW (MainResult.completed c)) :=
  claim_C8_fatal_config cfgW (by decide) (by decide)

/-- Counterexample to C3 as stated: `a.jpg` and `a.png` are two distinct
valid input files of `cfgC`, yet they map to the same output name
`a-thumbnail.jpg`, and the complete run of `cfgC` writes that name twice —
distinct valid inputs do NOT always yield distinct outputs, and output
names are written with duplicates. -/
theorem claim_C3_counterexample :
    "a.jpg" ∈ validNames cfgC ∧ "a.png" ∈ validNames cfgC ∧
    "a.jpg" ≠ "a.png" ∧ outName "a.jpg" = outName "a.png" ∧
    Reach cfgC c6 ∧ Terminal c6 ∧ ¬ c6.outputs.Nodup :=
  ⟨by decide, by decide, by decide, by decide, reachC6, terminalC6, by decide⟩

/-- C3 (amended).  No duplication or loss, up to stem collisions: in every
complete run with all writes succeeding, the set of output names written
is exactly `{stem(f) ++ "-thumbnail.jpg" : f a valid input}` — nothing is
lost and nothing extra appears — and valid inputs with distinct stems
yield distinct outputs (two valid inputs sharing a stem collide on one
output name, as the counterexample shows). -/
theorem claim_C3_no_duplication_or_loss (cfg : Cfg)
    (hN : 1 ≤ cfg.numConsumers) (hw : ∀ name, cfg.writeOk name = true)
    (s : SysState) (hr : Reach cfg s) (ht : Terminal s) :
    (∀ name, name ∈ s.outputs ↔ ∃ f ∈ validNames cfg, outName f = name) ∧
    (∀ f g, f ∈ validNames cfg → g ∈ validNames cfg →
      splitextStem f ≠ splitextStem g → outName f ≠ outName g) := by
  have ho := (final_state_eq hN hr ht).2.1
  constructor
  · intro name
    rw [ho]
    have hmap : (validNames cfg).filterMap
        (fun f => if cfg.writeOk (outName f) then some (outName f) else none)
        = (validNames cfg).map outName := by
      have hfn : (fun f => if cfg.writeOk (outName f) then some (outName f) else none)
          = some ∘ outName := by
        funext f
        simp [hw (outName f), Function.comp]
      rw [hfn, List.filterMap_eq_map]
    rw [hmap, List.mem_map]
  · intro f g hf hg hstem heq
    apply hstem
    have hdata := congrArg String.data heq
    rw [outName, outName, String.data_append, String.data_append] at hdata
    exact String.ext (List.append_cancel_right hdata)

/-- Witness for the amended C3, instantiated on the complete run of
`cfgC`. -/
theorem claim_C3_no_duplication_or_loss_witness :
    (∀ name, name ∈ c6.outputs ↔ ∃ f ∈ validNames cfgC, outName f = name) ∧
    (∀ f g, f ∈ validNames cfgC → g ∈ validNames cfgC →
      splitextStem f ≠ splitextStem g → outName f ≠ outName g) :=
  claim_C3_no_duplication_or_loss cfgC (by decide) (fun _ => rfl) c6 reachC6
    terminalC6

/-- C10.  Implicit stem-collision behavior: in `cfgC`, `a.jpg` and `a.png`
are distinct valid inputs with the same stem, both mapped to
`a-thumbnail.jpg`; every complete run writes that output name twice (the
second write overwriting the first), increments the counter once per
input, and therefore ends with a final count (2) strictly greater than the
number of distinct output files (1). -/
theorem claim_C10_stem_collision (s : SysState) (hr : Reach cfgC s)
    (ht : Terminal s) :
    outName "a.jpg" = outName "a.png" ∧
    "a.jpg" ∈ validNames cfgC ∧ "a.png" ∈ validNames cfgC ∧
    s.counter = 2 ∧
    s.outputs = ["a-thumbnail.jpg", "a-thumbnail.jpg"] ∧
    s.outputs.dedup.length = 1 ∧ s.outputs.dedup.length < s.counter := by
  have h := @final_state_eq cfgC s (by decide) hr ht
  have hc : s.counter = 2 := by
    rw [h.1]
    decide
  have ho : s.outputs = ["a-thumbnail.jpg", "a-thumbnail.jpg"] := by
    rw [h.2.1]
    decide
  refine ⟨by decide, by decide, by decide, hc, ho, ?_, ?_⟩
  · rw [ho]
    decide
  · rw [ho, hc]
    decide

/-- Witness for C10 at the concrete final state of the `cfgC` run. -/
theorem claim_C10_stem_collision_witness :
    outName "a.jpg" = outName "a.png" ∧
    "a.jpg" ∈ validNames cfgC ∧ "a.png" ∈ validNames cfgC ∧
    c6.counter = 2 ∧
    c6.outputs = ["a-thumbnail.jpg", "a-thumbnail.jpg"] ∧
    c6.outputs.dedup.length = 1 ∧ c6.outputs.dedup.length < c6.counter :=
  claim_C10_stem_collision c6 reachC6 terminalC6

end Thumbnailer
